import Mathlib

/-!
Verification of the stormdl segmented-downloader core против its specification.

The Rust source is shallowly embedded: `u64`/`usize` values become `Nat`
(with explicit wrapping modulo `2 ^ 64` where the source relies on wrapping
atomics), `f64` statistics become `ℚ`, fallible code returns `Except`/`Option`,
and stateful managers become explicit state-passing functions.
-/

namespace Storm

/-- Half-open byte interval `[start, stop)` — `ByteRange` from
storm-core/src/types.rs; `stop` models the Rust field `end`. -/
structure ByteRange where
  start : Nat
  stop : Nat
deriving DecidableEq, Repr

/-- `ByteRange::len`: `self.end.saturating_sub(self.start)` (Nat subtraction
already saturates at zero). -/
def ByteRange.len (r : ByteRange) : Nat := r.stop - r.start

/-- `ByteRange::is_empty`. -/
def ByteRange.isEmpty (r : ByteRange) : Bool := r.len == 0

/-- Loop body of `split_range` (storm-segment/src/splitter.rs, lines 52–57):
element `i` gets one extra byte when `i < remainder`; the argument `k` counts
the iterations that remain of `for i in 0..num_segments`. -/
def splitGo (segmentSize remainder : Nat) : Nat → Nat → Nat → List ByteRange
  | _offset, _i, 0 => []
  | offset, i, k + 1 =>
    let extra : Nat := if i < remainder then 1 else 0
    let size := segmentSize + extra
    ByteRange.mk offset (offset + size) ::
      splitGo segmentSize remainder (offset + size) (i + 1) k

/-- `split_range(total_size, num_segments)` from storm-segment/src/splitter.rs. -/
def split_range (totalSize numSegments : Nat) : List ByteRange :=
  if numSegments = 0 ∨ totalSize = 0 then []
  else splitGo (totalSize / numSegments) (totalSize % numSegments) 0 0 numSegments

/-- Size of the `i`-th produced range: `segment_size + extra`. -/
def segSize (segmentSize remainder i : Nat) : Nat :=
  segmentSize + if i < remainder then 1 else 0

/-- Sum of the sizes of the `j` ranges starting at loop index `i`. -/
def presum (segmentSize remainder i : Nat) : Nat → Nat
  | 0 => 0
  | j + 1 => presum segmentSize remainder i j + segSize segmentSize remainder (i + j)

theorem splitGo_length (s r : Nat) :
    ∀ (k off i : Nat), (splitGo s r off i k).length = k := by
  intro k
  induction k with
  | zero => intro off i; rfl
  | succ k ih => intro off i; simp [splitGo, ih]

theorem presum_succ (s r i j : Nat) :
    presum s r i (j + 1) = presum s r i j + segSize s r (i + j) := rfl

theorem presum_shift (s r i : Nat) :
    ∀ j, presum s r i (j + 1) = segSize s r i + presum s r (i + 1) j := by
  intro j
  induction j with
  | zero => simp [presum]
  | succ j ih =>
    have hidx : i + (j + 1) = (i + 1) + j := by omega
    rw [presum_succ, ih, presum_succ, hidx]
    omega

theorem splitGo_get? (s r : Nat) :
    ∀ (k off i j : Nat), j < k →
      (splitGo s r off i k).get? j =
        some (ByteRange.mk (off + presum s r i j) (off + presum s r i (j + 1))) := by
  intro k
  induction k with
  | zero => intro off i j h; omega
  | succ k ih =>
    intro off i j h
    cases j with
    | zero =>
      simp [splitGo, presum, segSize]
    | succ j =>
      have hj : j < k := by omega
      simp only [splitGo, List.get?]
      rw [ih (off + (s + if i < r then 1 else 0)) (i + 1) j hj]
      have h1 : presum s r i (j + 1) = segSize s r i + presum s r (i + 1) j :=
        presum_shift s r i (j + 1 - 1)
      have h2 : presum s r i (j + 1 + 1) = segSize s r i + presum s r (i + 1) (j + 1) :=
        presum_shift s r i (j + 1)
      simp only [segSize] at h1 h2
      congr 1
      simp only [ByteRange.mk.injEq]
      constructor <;> omega

theorem splitGo_sum (s r : Nat) :
    ∀ (k off i : Nat), ((splitGo s r off i k).map ByteRange.len).sum = presum s r i k := by
  intro k
  induction k with
  | zero => intro off i; rfl
  | succ k ih =>
    intro off i
    simp only [splitGo, List.map, List.sum_cons, ih]
    rw [presum_shift]
    simp only [ByteRange.len, segSize]
    omega

theorem presum_zero_eval (s r : Nat) :
    ∀ n, presum s r 0 n = n * s + min r n := by
  intro n
  induction n with
  | zero => simp [presum]
  | succ n ih =>
    rw [presum_succ, ih]
    simp only [segSize, Nat.zero_add]
    have hm : (n + 1) * s = n * s + s := by ring
    by_cases h : n < r
    · have h1 : min r n = n := by omega
      have h2 : min r (n + 1) = n + 1 := by omega
      rw [h1, h2, if_pos h, hm]
      omega
    · have h1 : min r n = r := by omega
      have h2 : min r (n + 1) = r := by omega
      rw [h1, h2, if_neg h, hm]
      omega

/-- C1: `split_range(total, n)` partitions `[0, total)` into exactly `n`
contiguous non-overlapping ranges whose lengths sum to `total`, with the first
`total mod n` ranges one byte longer than the rest (so max length minus min
length is at most 1), and it returns the empty list exactly when `n = 0` or
`total = 0`. -/
theorem split_range_correct (total n : Nat) :
    (split_range total n = [] ↔ n = 0 ∨ total = 0) ∧
    (split_range total n).length = (if n = 0 ∨ total = 0 then 0 else n) ∧
    ((split_range total n).map ByteRange.len).sum
        = (if n = 0 ∨ total = 0 then 0 else total) ∧
    (∀ j, ∀ h : j < (split_range total n).length,
      ((split_range total n).get ⟨j, h⟩).len
        = total / n + (if j < total % n then 1 else 0)) ∧
    (∀ j, ∀ h : j + 1 < (split_range total n).length,
      ((split_range total n).get ⟨j, Nat.lt_of_succ_lt h⟩).stop
        = ((split_range total n).get ⟨j + 1, h⟩).start) ∧
    (∀ h : 0 < (split_range total n).length,
      ((split_range total n).get ⟨0, h⟩).start = 0 ∧
      ((split_range total n).get
        ⟨(split_range total n).length - 1, by omega⟩).stop = total) ∧
    (∀ j j', ∀ hj : j < (split_range total n).length,
      ∀ hj' : j' < (split_range total n).length,
      ((split_range total n).get ⟨j, hj⟩).len
        ≤ ((split_range total n).get ⟨j', hj'⟩).len + 1) := by
  by_cases hdeg : n = 0 ∨ total = 0
  · have he : split_range total n = [] := by simp [split_range, hdeg]
    have hlen0 : (split_range total n).length = 0 := by rw [he]; rfl
    refine ⟨by simp [he, hdeg], by simp [hlen0, hdeg], by simp [he, hdeg],
      ?_, ?_, ?_, ?_⟩
    · intro j h; rw [hlen0] at h; exact absurd h (Nat.not_lt_zero j)
    · intro j h; rw [hlen0] at h; exact absurd h (Nat.not_lt_zero (j + 1))
    · intro h; rw [hlen0] at h; exact absurd h (Nat.lt_irrefl 0)
    · intro j j' hj hj'; rw [hlen0] at hj; exact absurd hj (Nat.not_lt_zero j)
  · have hn : n ≠ 0 := fun h => hdeg (Or.inl h)
    have heq : split_range total n = splitGo (total / n) (total % n) 0 0 n := by
      simp [split_range, hdeg]
    have hlen : (split_range total n).length = n := by
      rw [heq, splitGo_length]
    have hget : ∀ j, j < n →
        (split_range total n).get? j =
          some (ByteRange.mk (presum (total / n) (total % n) 0 j)
            (presum (total / n) (total % n) 0 (j + 1))) := by
      intro j hj
      rw [heq]
      have := splitGo_get? (total / n) (total % n) n 0 0 j hj
      simpa using this
    have hgetv : ∀ j, ∀ h : j < (split_range total n).length,
        (split_range total n).get ⟨j, h⟩ =
          ByteRange.mk (presum (total / n) (total % n) 0 j)
            (presum (total / n) (total % n) 0 (j + 1)) := by
      intro j h
      have h1 := hget j (by omega)
      rw [List.get?_eq_get h] at h1
      exact Option.some.injEq _ _ ▸ h1
    have hpre_succ : ∀ j, presum (total / n) (total % n) 0 (j + 1)
        = presum (total / n) (total % n) 0 j + segSize (total / n) (total % n) j := by
      intro j; simp [presum]
    have hlenj : ∀ j, ∀ h : j < (split_range total n).length,
        ((split_range total n).get ⟨j, h⟩).len
          = total / n + (if j < total % n then 1 else 0) := by
      intro j h
      rw [hgetv j h]
      simp only [ByteRange.len, hpre_succ, segSize]
      rw [Nat.add_sub_cancel_left]
    refine ⟨?_, ?_, ?_, hlenj, ?_, ?_, ?_⟩
    · constructor
      · intro h
        have := hlen
        rw [h] at this
        simp at this
        exact absurd (Or.inl this.symm) hdeg
      · intro h; exact absurd h hdeg
    · rw [hlen]; simp [hdeg]
    · rw [heq, splitGo_sum, presum_zero_eval]
      have hmod : total % n < n := Nat.mod_lt _ (Nat.pos_of_ne_zero hn)
      have hmin : min (total % n) n = total % n := by omega
      rw [hmin]
      have := Nat.div_add_mod total n
      simp only [if_neg hdeg]
      omega
    · intro j h
      rw [hgetv j (Nat.lt_of_succ_lt h), hgetv (j + 1) h]
    · intro h
      constructor
      · rw [hgetv 0 h]
        simp [presum]
      · rw [hgetv ((split_range total n).length - 1) (by omega)]
        simp only [hlen]
        have : n - 1 + 1 = n := by omega
        rw [this, presum_zero_eval]
        have hmod : total % n < n := Nat.mod_lt _ (Nat.pos_of_ne_zero hn)
        have hmin : min (total % n) n = total % n := by omega
        rw [hmin]
        have := Nat.div_add_mod total n
        omega
    · intro j j' hj hj'
      rw [hlenj j hj, hlenj j' hj']
      split_ifs <;> omega

/-- Witness for C1 at `total = 10`, `n = 3`: ranges `[0,4), [4,7), [7,10)`. -/
theorem split_range_correct_witness :
    0 < (split_range 10 3).length ∧
    ((split_range 10 3).get ⟨0, by decide⟩).len
      = 10 / 3 + (if 0 < 10 % 3 then 1 else 0) ∧
    ((split_range 10 3).get ⟨0, by decide⟩).start = 0 :=
  ⟨by decide, (split_range_correct 10 3).2.2.2.1 0 (by decide),
    ((split_range_correct 10 3).2.2.2.2.2.1 (by decide)).1⟩

/-- `SegmentStatus` from storm-core/src/types.rs. -/
inductive SegmentStatus where
  | Pending
  | Active
  | Complete
  | Error
  | Slow
deriving DecidableEq, Repr

/-- `SegmentState` from storm-core/src/types.rs; the `f64` field `speed` is
modelled as `ℚ`. -/
structure SegmentState where
  id : Nat
  range : ByteRange
  downloaded : Nat
  status : SegmentStatus
  speed : ℚ
deriving DecidableEq, Repr

/-- `SegmentState::new`. -/
def SegmentState.new (id : Nat) (range : ByteRange) : SegmentState :=
  ⟨id, range, 0, .Pending, 0⟩

/-- `SegmentState::remaining`: `range.len().saturating_sub(downloaded)`. -/
def SegmentState.remaining (s : SegmentState) : Nat := s.range.len - s.downloaded

/-- `initial_segments` from storm-segment/src/splitter.rs. -/
def initial_segments (fileSize : Nat) : Nat :=
  if fileSize ≤ 1000000 then 1
  else if fileSize ≤ 10000000 then 4
  else 8

/-- `SegmentManager` (storm-segment/src/manager.rs); the shared
`Arc<RwLock<Vec<SegmentState>>>` becomes an explicit list with state passing. -/
structure SegmentManager where
  segments : List SegmentState
  total_size : Nat
  min_segment_size : Nat
  max_segments : Nat
deriving DecidableEq, Repr

/-- `SegmentManager::new` — defaults `min_segment_size = 256 KiB`,
`max_segments = 32`. -/
def SegmentManager.new (totalSize : Nat) : SegmentManager :=
  ⟨[], totalSize, 256 * 1024, 32⟩

/-- `SegmentManager::with_config`. -/
def SegmentManager.with_config (totalSize minSegmentSize maxSegments : Nat) :
    SegmentManager :=
  ⟨[], totalSize, minSegmentSize, maxSegments⟩

/-- Update of the element at index `i` (a no-op when out of range), modelling
`segments.get_mut(id)` followed by a field assignment. -/
def modifyAt {α : Type} (l : List α) (i : Nat) (f : α → α) : List α :=
  match l, i with
  | [], _ => []
  | x :: xs, 0 => f x :: xs
  | x :: xs, i + 1 => x :: modifyAt xs i f

/-- `SegmentManager::with_segments`. -/
def SegmentManager.with_segments (totalSize numSegments : Nat) : SegmentManager :=
  let ranges := split_range totalSize numSegments
  { SegmentManager.new totalSize with
    segments := ranges.enum.map fun p => SegmentState.new p.1 p.2 }

/-- `SegmentManager::initialize` (the Lean name avoids the keyword). -/
def SegmentManager.initializeSegments (m : SegmentManager) : SegmentManager :=
  let ranges := split_range m.total_size (initial_segments m.total_size)
  { m with segments := ranges.enum.map fun p => SegmentState.new p.1 p.2 }

/-- `SegmentManager::update_segment`. -/
def SegmentManager.update_segment (m : SegmentManager) (id downloaded : Nat)
    (speed : ℚ) : SegmentManager :=
  let f := fun seg => { seg with downloaded := downloaded, speed := speed }
  { m with segments := modifyAt m.segments id f }

/-- `SegmentManager::mark_complete`. -/
def SegmentManager.mark_complete (m : SegmentManager) (id : Nat) : SegmentManager :=
  let f := fun seg => { seg with status := SegmentStatus.Complete, downloaded := seg.range.len }
  { m with segments := modifyAt m.segments id f }

/-- `SegmentManager::mark_error`. -/
def SegmentManager.mark_error (m : SegmentManager) (id : Nat) : SegmentManager :=
  let f := fun seg => { seg with status := SegmentStatus.Error }
  { m with segments := modifyAt m.segments id f }

/-- The split point chosen by `split_segment` (manager.rs lines 99–100):
`current_offset + remaining / 2` where `current_offset = range.start + downloaded`. -/
def splitPointOf (seg : SegmentState) : Nat :=
  seg.range.start + seg.downloaded + seg.remaining / 2

/-- `SegmentManager::split_segment` (manager.rs lines 85–111). Returns the
optional child segment together with the successor manager state. -/
def SegmentManager.split_segment (m : SegmentManager) (id : Nat) :
    Option SegmentState × SegmentManager :=
  if m.max_segments ≤ m.segments.length then (none, m)
  else
    match m.segments.get? id with
    | none => (none, m)
    | some segment =>
      if segment.remaining < m.min_segment_size * 2 then (none, m)
      else
        let splitPoint := splitPointOf segment
        let newId := m.segments.length
        let newRange := ByteRange.mk splitPoint segment.range.stop
        let truncated := modifyAt m.segments id
          (fun s => { s with range := ByteRange.mk s.range.start splitPoint })
        let newSegment := SegmentState.new newId newRange
        (some newSegment, { m with segments := truncated ++ [newSegment] })

theorem modifyAt_get? {α : Type} (f : α → α) :
    ∀ (l : List α) (i j : Nat),
      (modifyAt l i f).get? j = if j = i then (l.get? j).map f else l.get? j := by
  intro l
  induction l with
  | nil => intro i j; simp [modifyAt]
  | cons x xs ih =>
    intro i j
    cases i with
    | zero =>
      cases j with
      | zero => simp [modifyAt]
      | succ j => simp [modifyAt]
    | succ i =>
      cases j with
      | zero => simp [modifyAt]
      | succ j =>
        simp only [modifyAt, List.get?]
        rw [ih i j]
        by_cases h : j = i
        · simp [h]
        · simp [h, fun hh => h (Nat.succ_injective hh)]

theorem modifyAt_length {α : Type} (f : α → α) :
    ∀ (l : List α) (i : Nat), (modifyAt l i f).length = l.length := by
  intro l
  induction l with
  | nil => intro i; rfl
  | cons x xs ih =>
    intro i
    cases i with
    | zero => rfl
    | succ i => simp [modifyAt, ih]

/-- C2: for a manager state whose segment `id` exists and satisfies the
documented invariants (`start ≤ end`, `downloaded ≤ len`), `split_segment id`
refuses (returns `none`) exactly when the segment count is at least
`max_segments` or the remaining bytes are below `2 × min_segment_size`;
otherwise, with `p` the midpoint of the remaining range, it truncates the
parent to `[start, p)`, appends a child with id equal to the pre-split count
and range `[p, end)`, and parent plus child cover exactly the parent's
pre-split range with no overlap. -/
theorem split_segment_correct (m : SegmentManager) (id : Nat) (seg : SegmentState)
    (hseg : m.segments.get? id = some seg)
    (hr : seg.range.start ≤ seg.range.stop)
    (hdl : seg.downloaded ≤ seg.range.len) :
    ((m.split_segment id).1 = none ↔
      m.max_segments ≤ m.segments.length ∨
        seg.remaining < 2 * m.min_segment_size) ∧
    (∀ child, (m.split_segment id).1 = some child →
      child.id = m.segments.length ∧
      child.range = ByteRange.mk (splitPointOf seg) seg.range.stop ∧
      child.downloaded = 0 ∧
      child.status = .Pending ∧
      (m.split_segment id).2.segments.get? id =
        some { seg with range := ByteRange.mk seg.range.start (splitPointOf seg) } ∧
      (m.split_segment id).2.segments.get? child.id = some child ∧
      (m.split_segment id).2.segments.length = m.segments.length + 1 ∧
      seg.range.start ≤ splitPointOf seg ∧
      splitPointOf seg ≤ seg.range.stop ∧
      Set.Ico seg.range.start (splitPointOf seg) ∪
          Set.Ico (splitPointOf seg) seg.range.stop
        = Set.Ico seg.range.start seg.range.stop ∧
      Disjoint (Set.Ico seg.range.start (splitPointOf seg))
        (Set.Ico (splitPointOf seg) seg.range.stop)) := by
  have hid : id < m.segments.length := List.get?_eq_some.mp hseg |>.choose
  have hseg2 : m.segments[id]? = some seg := by
    rw [← List.get?_eq_getElem?]; exact hseg
  have hp1 : seg.range.start ≤ splitPointOf seg := by
    simp only [splitPointOf]; omega
  have hp2 : splitPointOf seg ≤ seg.range.stop := by
    simp only [splitPointOf, SegmentState.remaining, ByteRange.len] at *
    omega
  by_cases hmax : m.max_segments ≤ m.segments.length
  · have hres : m.split_segment id = (none, m) := by
      simp [SegmentManager.split_segment, hmax]
    rw [hres]
    refine ⟨⟨fun _ => Or.inl hmax, fun _ => rfl⟩, fun child hch => ?_⟩
    exact absurd hch (by simp)
  · by_cases hrem : seg.remaining < m.min_segment_size * 2
    · have hres : m.split_segment id = (none, m) := by
        simp [SegmentManager.split_segment, hmax, hseg2, hrem]
      rw [hres]
      refine ⟨⟨fun _ => Or.inr (by omega), fun _ => rfl⟩, fun child hch => ?_⟩
      exact absurd hch (by simp)
    · have hres : m.split_segment id =
        (some (SegmentState.new m.segments.length
            (ByteRange.mk (splitPointOf seg) seg.range.stop)),
          { m with segments := (modifyAt m.segments id
              fun s => { s with range := ByteRange.mk s.range.start (splitPointOf seg) })
            ++ [SegmentState.new m.segments.length
              (ByteRange.mk (splitPointOf seg) seg.range.stop)] }) := by
        simp [SegmentManager.split_segment, hmax, hseg2, hrem]
      constructor
      · rw [hres]
        refine ⟨fun h => absurd h (by simp), fun h => ?_⟩
        rcases h with h | h
        · exact absurd h hmax
        · exact absurd (by omega : seg.remaining < m.min_segment_size * 2) hrem
      · intro child hch
        rw [hres] at hch
        simp only [Option.some.injEq] at hch
        subst hch
        have hlenmod := modifyAt_length
          (fun s => { s with range := ByteRange.mk s.range.start (splitPointOf seg) })
          m.segments id
        refine ⟨rfl, rfl, rfl, rfl, ?_, ?_, ?_, hp1, hp2, ?_, ?_⟩
        · rw [hres]
          rw [List.get?_append (by rw [hlenmod]; exact hid)]
          rw [modifyAt_get?, if_pos rfl, hseg]
          rfl
        · rw [hres]
          simp only [SegmentState.new]
          have : m.segments.length = (modifyAt m.segments id
              (fun s => { s with range := ByteRange.mk s.range.start (splitPointOf seg) })).length := by
            rw [hlenmod]
          rw [this, List.get?_concat_length]
        · rw [hres]
          simp [hlenmod]
        · exact Set.Ico_union_Ico_eq_Ico hp1 hp2
        · exact Set.Ico_disjoint_Ico_same

/-- Witness for C2: a 2 MiB single-segment manager splits into `[0, 1 MiB)` and
`[1 MiB, 2 MiB)`. -/
theorem split_segment_correct_witness :
    ¬(((SegmentManager.with_segments 2097152 1).split_segment 0).1 = none) := by
  have h := split_segment_correct (SegmentManager.with_segments 2097152 1) 0
    (SegmentState.new 0 (ByteRange.mk 0 2097152)) (by rfl) (by decide) (by decide)
  intro hn
  rcases h.1.mp hn with h1 | h2
  · exact absurd h1 (by decide)
  · exact absurd h2 (by decide)

/-- An externally invokable segment-manager operation (manager.rs public API). -/
inductive MgrOp where
  | initSegs
  | update (id downloaded : Nat) (speed : ℚ)
  | markComplete (id : Nat)
  | markError (id : Nat)
  | split (id : Nat)

/-- One operation applied to the manager state; `split` keeps only the state. -/
def mgrStep (m : SegmentManager) : MgrOp → SegmentManager
  | .initSegs => m.initializeSegments
  | .update id d s => m.update_segment id d s
  | .markComplete id => m.mark_complete id
  | .markError id => m.mark_error id
  | .split id => (m.split_segment id).2

/-- Run a sequence of operations on a manager state. -/
def mgrRun (m : SegmentManager) (ops : List MgrOp) : SegmentManager :=
  ops.foldl mgrStep m

/-- Claim C3 as stated: every segment reachable through any operation sequence
satisfies `downloaded ≤ range.len()` and `Complete ⇔ downloaded = range.len()`. -/
def segmentInvariantClaim : Prop :=
  ∀ (total : Nat) (ops : List MgrOp),
    ∀ seg ∈ (mgrRun (SegmentManager.new total) ops).segments,
      seg.downloaded ≤ seg.range.len ∧
      (seg.status = SegmentStatus.Complete ↔ seg.downloaded = seg.range.len)

/-- C3 counterexample: `update_segment(0, 200, 0.0)` on a 100-byte single
segment stores `downloaded = 200 > 100 = range.len()`, so the claimed invariant
fails on a reachable state. -/
theorem segment_invariant_counterexample : ¬ segmentInvariantClaim := by
  intro h
  have hm : (mgrRun (SegmentManager.new 100)
      [MgrOp.initSegs, MgrOp.update 0 200 0]).segments
      = [⟨0, ⟨0, 100⟩, 200, SegmentStatus.Pending, 0⟩] := by rfl
  have h2 := h 100 [MgrOp.initSegs, MgrOp.update 0 200 0]
    ⟨0, ⟨0, 100⟩, 200, SegmentStatus.Pending, 0⟩
    (by rw [hm]; exact List.mem_singleton_self _)
  exact absurd h2.1 (by decide)

/-- Guard on operations: `update_segment` is only invoked with a byte count
that does not exceed the target segment's range length. -/
def goodOp (m : SegmentManager) : MgrOp → Prop
  | .update id d _ => ∀ seg, m.segments.get? id = some seg → d ≤ seg.range.len
  | _ => True

/-- Manager states reachable from `SegmentManager::new(total)` through guarded
operations. -/
inductive ReachableG (total : Nat) : SegmentManager → Prop where
  | init : ReachableG total (SegmentManager.new total)
  | step (m : SegmentManager) (op : MgrOp) :
      ReachableG total m → goodOp m op → ReachableG total (mgrStep m op)

theorem mem_modifyAt {α : Type} (f : α → α) (l : List α) (i : Nat) (x : α)
    (hx : x ∈ modifyAt l i f) :
    x ∈ l ∨ ∃ y, l.get? i = some y ∧ x = f y := by
  induction l generalizing i with
  | nil => simp [modifyAt] at hx
  | cons a as ih =>
    cases i with
    | zero =>
      simp only [modifyAt, List.mem_cons] at hx
      rcases hx with h | h
      · exact Or.inr ⟨a, rfl, h⟩
      · exact Or.inl (List.mem_cons_of_mem a h)
    | succ i =>
      simp only [modifyAt, List.mem_cons] at hx
      rcases hx with h | h
      · exact Or.inl (by simp [h])
      · rcases ih i h with h2 | ⟨y, hy, hxy⟩
        · exact Or.inl (List.mem_cons_of_mem a h2)
        · exact Or.inr ⟨y, by simpa using hy, hxy⟩

theorem reachable_downloaded_le (total : Nat) (m : SegmentManager)
    (h : ReachableG total m) :
    ∀ seg ∈ m.segments, seg.downloaded ≤ seg.range.len := by
  induction h with
  | init => intro seg hs; simp [SegmentManager.new] at hs
  | step m op hm hg ih =>
    cases op with
    | initSegs =>
      intro seg hs
      simp only [mgrStep, SegmentManager.initializeSegments] at hs
      rw [List.mem_map] at hs
      obtain ⟨p, _, hp⟩ := hs
      rw [← hp]
      simp [SegmentState.new]
    | update id d s =>
      intro seg hs
      simp only [mgrStep, SegmentManager.update_segment] at hs
      rcases mem_modifyAt _ _ _ _ hs with h1 | ⟨y, hy, hxy⟩
      · exact ih seg h1
      · subst hxy
        simpa using hg y hy
    | markComplete id =>
      intro seg hs
      simp only [mgrStep, SegmentManager.mark_complete] at hs
      rcases mem_modifyAt _ _ _ _ hs with h1 | ⟨y, hy, hxy⟩
      · exact ih seg h1
      · subst hxy; simp
    | markError id =>
      intro seg hs
      simp only [mgrStep, SegmentManager.mark_error] at hs
      rcases mem_modifyAt _ _ _ _ hs with h1 | ⟨y, hy, hxy⟩
      · exact ih seg h1
      · subst hxy
        simpa using ih y (List.get?_mem hy)
    | split id =>
      intro seg hs
      simp only [mgrStep] at hs
      by_cases hmax : m.max_segments ≤ m.segments.length
      · simp only [SegmentManager.split_segment, if_pos hmax] at hs
        exact ih seg hs
      · cases hgetid : m.segments.get? id with
        | none =>
          simp only [SegmentManager.split_segment, if_neg hmax, hgetid] at hs
          exact ih seg hs
        | some segment =>
          by_cases hrem : segment.remaining < m.min_segment_size * 2
          · simp only [SegmentManager.split_segment, if_neg hmax, hgetid,
              if_pos hrem] at hs
            exact ih seg hs
          · simp only [SegmentManager.split_segment, if_neg hmax, hgetid,
              if_neg hrem] at hs
            rw [List.mem_append] at hs
            rcases hs with hs | hs
            · rcases mem_modifyAt _ _ _ _ hs with h1 | ⟨y, hy, hxy⟩
              · exact ih seg h1
              · subst hxy
                have hysg : segment = y := by
                  rw [hgetid] at hy
                  exact Option.some.injEq _ _ ▸ hy
                subst hysg
                simp only [ByteRange.len, splitPointOf]
                omega
            · rw [List.mem_singleton] at hs
              subst hs
              simp [SegmentState.new]

/-- C3 amended: the per-segment bound `downloaded ≤ range.len()` holds for every
state reachable through operation sequences in which each `update_segment` call
supplies a byte count bounded by the target segment's range length (the code
itself does not clamp); and `mark_complete(id)` establishes
`status = Complete ∧ downloaded = range.len()` for segment `id`.  The
unrestricted equivalence `Complete ⇔ downloaded = range.len()` of the original
claim does not hold. -/
theorem segment_invariant_amended :
    (∀ (total : Nat) (m : SegmentManager), ReachableG total m →
      ∀ seg ∈ m.segments, seg.downloaded ≤ seg.range.len) ∧
    (∀ (m : SegmentManager) (id : Nat) (seg : SegmentState),
      (m.mark_complete id).segments.get? id = some seg →
      seg.status = SegmentStatus.Complete ∧ seg.downloaded = seg.range.len) := by
  refine ⟨fun total m h => reachable_downloaded_le total m h, ?_⟩
  intro m id seg hget
  simp only [SegmentManager.mark_complete] at hget
  rw [modifyAt_get?, if_pos rfl] at hget
  cases horig : m.segments.get? id with
  | none => rw [horig] at hget; exact absurd hget (by simp)
  | some orig =>
    rw [horig] at hget
    exact Option.some.inj hget ▸ ⟨rfl, rfl⟩

/-- Witness for C3 (amended) at a concrete 100-byte manager. -/
theorem segment_invariant_amended_witness :
    (∃ seg, ((SegmentManager.with_segments 100 1).mark_complete 0).segments.get? 0
        = some seg ∧
      seg.status = SegmentStatus.Complete ∧ seg.downloaded = seg.range.len) ∧
    (SegmentState.new 0 (ByteRange.mk 0 100)).downloaded
      ≤ (SegmentState.new 0 (ByteRange.mk 0 100)).range.len := by
  constructor
  · refine ⟨⟨0, ⟨0, 100⟩, 100, SegmentStatus.Complete, 0⟩, by rfl, ?_⟩
    exact segment_invariant_amended.2 (SegmentManager.with_segments 100 1) 0 _ (by rfl)
  · have hr : ReachableG 100 (mgrStep (SegmentManager.new 100) MgrOp.initSegs) :=
      ReachableG.step _ _ ReachableG.init trivial
    have hl : (mgrStep (SegmentManager.new 100) MgrOp.initSegs).segments
        = [SegmentState.new 0 (ByteRange.mk 0 100)] := by rfl
    exact segment_invariant_amended.1 100 _ hr _ (by rw [hl]; exact List.mem_singleton_self _)

/-- `MirrorPriority` from storm-core/src/mirror.rs. -/
inductive MirrorPriority where
  | Primary
  | Secondary
  | Fallback
deriving DecidableEq, Repr

/-- The priority multiplier of `best_mirror` (mirror.rs lines 124–128). -/
def priorityBoost : MirrorPriority → ℚ
  | .Primary => 3 / 2
  | .Secondary => 1
  | .Fallback => 1 / 2

/-- `MirrorStats` from storm-core/src/mirror.rs; `avg_speed : f64` becomes `ℚ`. -/
structure MirrorStats where
  bytes_downloaded : Nat
  errors : Nat
  avg_speed : ℚ
  active_segments : Nat
deriving DecidableEq, Repr

/-- mirror.rs line 120: `stats.map(|s| s.avg_speed).unwrap_or(0.0)`. -/
def statSpeed (stats : Nat → Option MirrorStats) (idx : Nat) : ℚ :=
  ((stats idx).map MirrorStats.avg_speed).getD 0

/-- mirror.rs line 121. -/
def statErrors (stats : Nat → Option MirrorStats) (idx : Nat) : Nat :=
  ((stats idx).map MirrorStats.errors).getD 0

/-- mirror.rs line 122. -/
def statActive (stats : Nat → Option MirrorStats) (idx : Nat) : Nat :=
  ((stats idx).map MirrorStats.active_segments).getD 0

/-- The score computed by `best_mirror` (mirror.rs lines 130–133):
`speed * priority_boost * error_penalty * load_factor`. -/
def bestMirrorScore (boost speed : ℚ) (errors active : Nat) : ℚ :=
  speed * boost * (1 / (1 + (errors : ℚ) * (1 / 2))) * (1 / (1 + (active : ℚ) * (1 / 10)))

/-- Score of the enumerated mirror `p = (idx, priority)` as `best_mirror`
computes it. -/
def bmPairScore (stats : Nat → Option MirrorStats) (p : Nat × MirrorPriority) : ℚ :=
  bestMirrorScore (priorityBoost p.2) (statSpeed stats p.1)
    (statErrors stats p.1) (statActive stats p.1)

/-- `score > best_score` with `best_score` initialised to `f64::NEG_INFINITY`
(modelled as `none`). -/
def gtOpt (score : ℚ) : Option ℚ → Bool
  | none => true
  | some b => decide (b < score)

/-- The `for (idx, mirror)` fold of `best_mirror` (mirror.rs lines 118–139). -/
def bestMirrorLoop (stats : Nat → Option MirrorStats) :
    List (Nat × MirrorPriority) → Nat × Option ℚ → Nat × Option ℚ
  | [], acc => acc
  | (idx, pr) :: rest, (bi, bs) =>
    let score := bestMirrorScore (priorityBoost pr) (statSpeed stats idx)
      (statErrors stats idx) (statActive stats idx)
    if gtOpt score bs then bestMirrorLoop stats rest (idx, some score)
    else bestMirrorLoop stats rest (bi, bs)

/-- `MirrorSet::best_mirror` (mirror.rs lines 110–142); the mirror list is
abstracted to its priority column, which is all the scoring reads. -/
def best_mirror (mirrors : List MirrorPriority) (stats : Nat → Option MirrorStats) : Nat :=
  if mirrors.length ≤ 1 then 0
  else (bestMirrorLoop stats mirrors.enum (0, none)).1

/-- Comparison against an optional running best (`none` is `-∞`). -/
def leOpt : Option ℚ → Option ℚ → Prop
  | none, _ => True
  | some _, none => False
  | some x, some y => x ≤ y

theorem leOpt_refl (a : Option ℚ) : leOpt a a := by
  cases a <;> simp [leOpt]

theorem leOpt_some_trans {b c : ℚ} {r : Option ℚ} (h1 : b ≤ c)
    (h2 : leOpt (some c) r) : leOpt (some b) r := by
  cases r with
  | none => exact h2
  | some y => exact le_trans h1 h2

theorem gtOpt_eq_true {sc : ℚ} {bs : Option ℚ} (h : gtOpt sc bs = true) :
    bs = none ∨ ∃ b, bs = some b ∧ b < sc := by
  cases bs with
  | none => exact Or.inl rfl
  | some b => exact Or.inr ⟨b, rfl, by simpa [gtOpt] using h⟩

theorem gtOpt_eq_false {sc : ℚ} {bs : Option ℚ} (h : gtOpt sc bs = false) :
    ∃ b, bs = some b ∧ sc ≤ b := by
  cases bs with
  | none => simp [gtOpt] at h
  | some b => exact ⟨b, rfl, by simpa [gtOpt] using h⟩

theorem bestMirrorLoop_spec (stats : Nat → Option MirrorStats) :
    ∀ (l : List (Nat × MirrorPriority)) (bi : Nat) (bs : Option ℚ),
      leOpt bs (bestMirrorLoop stats l (bi, bs)).2 ∧
      (∀ p ∈ l, leOpt (some (bmPairScore stats p)) (bestMirrorLoop stats l (bi, bs)).2) ∧
      ((bestMirrorLoop stats l (bi, bs)).1 = bi ∧
          (bestMirrorLoop stats l (bi, bs)).2 = bs ∨
        ∃ l1 p l2, l = l1 ++ p :: l2 ∧
          (bestMirrorLoop stats l (bi, bs)).1 = p.1 ∧
          (bestMirrorLoop stats l (bi, bs)).2 = some (bmPairScore stats p) ∧
          (∀ q ∈ l1, bmPairScore stats q < bmPairScore stats p) ∧
          (∀ b, bs = some b → b < bmPairScore stats p)) := by
  intro l
  induction l with
  | nil =>
    intro bi bs
    exact ⟨leOpt_refl bs, by simp, Or.inl ⟨rfl, rfl⟩⟩
  | cons p rest ih =>
    intro bi bs
    obtain ⟨idx, pr⟩ := p
    cases hgt : gtOpt (bestMirrorScore (priorityBoost pr) (statSpeed stats idx)
        (statErrors stats idx) (statActive stats idx)) bs with
    | true =>
      have hred : bestMirrorLoop stats ((idx, pr) :: rest) (bi, bs)
          = bestMirrorLoop stats rest (idx,
              some (bestMirrorScore (priorityBoost pr) (statSpeed stats idx)
                (statErrors stats idx) (statActive stats idx))) := by
        simp [bestMirrorLoop, hgt]
      obtain ⟨ih1, ih2, ih3⟩ := ih idx
        (some (bestMirrorScore (priorityBoost pr) (statSpeed stats idx)
          (statErrors stats idx) (statActive stats idx)))
      have hbslt : ∀ b, bs = some b → b < bmPairScore stats (idx, pr) := by
        intro b hb
        rcases gtOpt_eq_true hgt with hn | ⟨b2, hb2, hlt⟩
        · rw [hn] at hb; exact Option.noConfusion hb
        · rw [hb2] at hb
          rw [← Option.some.inj hb]
          exact hlt
      rw [hred]
      refine ⟨?_, ?_, ?_⟩
      · rcases gtOpt_eq_true hgt with hb | ⟨b, hb, hlt⟩
        · rw [hb]; exact trivial
        · rw [hb]; exact leOpt_some_trans (le_of_lt hlt) ih1
      · intro q hq
        rcases List.mem_cons.mp hq with hq | hq
        · rw [hq]; exact ih1
        · exact ih2 q hq
      · rcases ih3 with ⟨h1, h2⟩ | ⟨l1, p2, l2, hsplit, h1, h2, hstrict, hacc⟩
        · exact Or.inr ⟨[], (idx, pr), rest, by simp, h1, h2, by simp, hbslt⟩
        · have hsclt : bmPairScore stats (idx, pr) < bmPairScore stats p2 :=
            hacc (bestMirrorScore (priorityBoost pr) (statSpeed stats idx)
              (statErrors stats idx) (statActive stats idx)) rfl
          refine Or.inr ⟨(idx, pr) :: l1, p2, l2, by rw [hsplit, List.cons_append], h1, h2, ?_, ?_⟩
          · intro q hq
            rcases List.mem_cons.mp hq with hq | hq
            · rw [hq]; exact hsclt
            · exact hstrict q hq
          · intro b hb
            exact lt_trans (hbslt b hb) hsclt
    | false =>
      have hred : bestMirrorLoop stats ((idx, pr) :: rest) (bi, bs)
          = bestMirrorLoop stats rest (bi, bs) := by
        simp [bestMirrorLoop, hgt]
      obtain ⟨b0, hb0, hle0⟩ := gtOpt_eq_false hgt
      subst hb0
      obtain ⟨ih1, ih2, ih3⟩ := ih bi (some b0)
      rw [hred]
      refine ⟨ih1, ?_, ?_⟩
      · intro q hq
        rcases List.mem_cons.mp hq with hq | hq
        · rw [hq]
          exact leOpt_some_trans hle0 ih1
        · exact ih2 q hq
      · rcases ih3 with ⟨h1, h2⟩ | ⟨l1, p2, l2, hsplit, h1, h2, hstrict, hacc⟩
        · exact Or.inl ⟨h1, h2⟩
        · have hblt : b0 < bmPairScore stats p2 := hacc b0 rfl
          refine Or.inr ⟨(idx, pr) :: l1, p2, l2, by rw [hsplit, List.cons_append], h1, h2, ?_, ?_⟩
          · intro q hq
            rcases List.mem_cons.mp hq with hq | hq
            · rw [hq]; exact lt_of_le_of_lt hle0 hblt
            · exact hstrict q hq
          · intro b hb
            rw [← Option.some.inj hb]
            exact hblt

/-- `best_mirror` on ≥ 2 mirrors returns the first index attaining the maximal
code score: the result attains the maximum and strictly exceeds the score of
every smaller index (helper for C4's amended statement). -/
theorem best_mirror_argmax (mirrors : List MirrorPriority)
    (stats : Nat → Option MirrorStats) (hm : 1 < mirrors.length) :
    best_mirror mirrors stats < mirrors.length ∧
    ∃ pb, mirrors.get? (best_mirror mirrors stats) = some pb ∧
      (∀ i pi, mirrors.get? i = some pi →
        bmPairScore stats (i, pi)
          ≤ bmPairScore stats (best_mirror mirrors stats, pb)) ∧
      (∀ i pi, i < best_mirror mirrors stats → mirrors.get? i = some pi →
        bmPairScore stats (i, pi)
          < bmPairScore stats (best_mirror mirrors stats, pb)) := by
  have hne : ¬ mirrors.length ≤ 1 := by omega
  have hbm : best_mirror mirrors stats = (bestMirrorLoop stats mirrors.enum (0, none)).1 := by
    simp [best_mirror, hne]
  obtain ⟨h1, h2, h3⟩ := bestMirrorLoop_spec stats mirrors.enum 0 none
  have hmem0 : ∃ q, q ∈ mirrors.enum := by
    cases he : mirrors.enum with
    | nil =>
      have := List.enum_length (l := mirrors)
      rw [he] at this
      simp at this
      omega
    | cons q rest =>
      exact ⟨q, List.mem_cons_self q rest⟩
  obtain ⟨q0, hq0⟩ := hmem0
  have hne2 : (bestMirrorLoop stats mirrors.enum (0, none)).2 ≠ none := by
    intro hn
    have := h2 q0 hq0
    rw [hn] at this
    exact this
  rcases h3 with ⟨_, hbs⟩ | ⟨l1, p, l2, hsplit, hp1, hp2, hstrict, _⟩
  · exact absurd hbs hne2
  · have hpmem : p ∈ mirrors.enum := by
      rw [hsplit]
      exact List.mem_append_right _ (List.mem_cons_self _ _)
    have hpget : mirrors.get? p.1 = some p.2 :=
      List.mem_enum_iff_get?.mp hpmem
    have hplt : p.1 < mirrors.length := by
      by_contra hc
      rw [List.get?_eq_none.mpr (by omega)] at hpget
      exact Option.noConfusion hpget
    have hgetp : mirrors.enum.get? l1.length = some p := by
      rw [hsplit, List.get?_append_right (le_refl _)]
      simp
    have hplen : p.1 = l1.length := by
      rw [List.get?_enum] at hgetp
      cases hml : mirrors.get? l1.length with
      | none => rw [hml] at hgetp; exact Option.noConfusion hgetp
      | some a =>
        rw [hml] at hgetp
        have hpa := Option.some.inj hgetp
        rw [← hpa]
    constructor
    · rw [hbm, hp1]; exact hplt
    · refine ⟨p.2, by rw [hbm, hp1]; exact hpget, ?_, ?_⟩
      · intro i pi hi
        have hmemi : (i, pi) ∈ mirrors.enum := List.mk_mem_enum_iff_get?.mpr hi
        have hle := h2 (i, pi) hmemi
        rw [hp2] at hle
        have hfinal : bmPairScore stats (i, pi) ≤ bmPairScore stats p := hle
        rw [hbm, hp1]
        have hpp : p = (p.1, p.2) := rfl
        rw [← hpp]
        exact hfinal
      · intro i pi hilt hi
        rw [hbm, hp1] at hilt
        have hil1 : i < l1.length := by omega
        have heni : mirrors.enum.get? i = some (i, pi) := by
          rw [List.get?_enum, hi]
          rfl
        have hgi : (l1 ++ p :: l2).get? i = l1.get? i := List.get?_append hil1
        have hl1i : l1.get? i = some (i, pi) := by
          rw [← hgi, ← hsplit]
          exact heni
        have hmem : (i, pi) ∈ l1 := List.get?_mem hl1i
        have hlt := hstrict (i, pi) hmem
        rw [hbm, hp1]
        have hpp : p = (p.1, p.2) := rfl
        rw [← hpp]
        exact hlt

/-- `SourceStats` from storm-segment/src/multi_source.rs; the atomics become
plain numbers and the sample ring a list. -/
structure SourceStats where
  bytes_downloaded : Nat
  errors : Nat
  active_segments : Nat
  speed_samples : List ℚ
deriving DecidableEq, Repr

/-- `SourceStats::new`. -/
def SourceStats.new : SourceStats := ⟨0, 0, 0, []⟩

/-- `SourceStats::avg_speed`. -/
def SourceStats.avg_speed (s : SourceStats) : ℚ :=
  if s.speed_samples = [] then 0
  else s.speed_samples.sum / s.speed_samples.length

/-- `MultiSourceManager` state; both `HashMap`s become functions and the
mirror set is abstracted to its priority column. -/
structure MultiSource where
  mirrors : List MirrorPriority
  assignments : Nat → Option Nat
  stats : Nat → Option SourceStats

/-- `usize` wrapping decrement — `fetch_sub(1, Relaxed)` on `AtomicUsize`. -/
def wrapDec (a : Nat) : Nat := (a + (2 ^ 64 - 1)) % 2 ^ 64

/-- `usize` wrapping increment — `fetch_add(1, Relaxed)`. -/
def wrapInc (a : Nat) : Nat := (a + 1) % 2 ^ 64

/-- multi_source.rs lines 79–84: decrement the old source's `active_segments`
when a stats entry exists (no entry is created). -/
def decActiveAt (stats : Nat → Option SourceStats) (oldIdx : Nat) :
    Nat → Option SourceStats :=
  match stats oldIdx with
  | some s => fun j =>
      if j = oldIdx then some { s with active_segments := wrapDec s.active_segments }
      else stats j
  | none => stats

/-- multi_source.rs lines 126–131: `entry(new_idx).or_insert_with(new)` then
`fetch_add(1)` on `active_segments`. -/
def incActiveAt (stats : Nat → Option SourceStats) (idx : Nat) :
    Nat → Option SourceStats :=
  match stats idx with
  | some s => fun j =>
      if j = idx then some { s with active_segments := wrapInc s.active_segments }
      else stats j
  | none => fun j =>
      if j = idx then
        some { SourceStats.new with
          active_segments := wrapInc SourceStats.new.active_segments }
      else stats j

/-- The score of `reassign_segment` (multi_source.rs line 113):
`(speed + 1.0) * error_penalty * load_factor` — note: no priority boost. -/
def reassignScore (speed : ℚ) (errors active : Nat) : ℚ :=
  (speed + 1) * (1 / (1 + (errors : ℚ) * (1 / 2))) * (1 / (1 + (active : ℚ) * (1 / 10)))

/-- multi_source.rs line 105. -/
def srcSpeed (stats : Nat → Option SourceStats) (idx : Nat) : ℚ :=
  ((stats idx).map SourceStats.avg_speed).getD 0

/-- multi_source.rs line 106. -/
def srcErrors (stats : Nat → Option SourceStats) (idx : Nat) : Nat :=
  ((stats idx).map SourceStats.errors).getD 0

/-- multi_source.rs lines 107–109. -/
def srcActive (stats : Nat → Option SourceStats) (idx : Nat) : Nat :=
  ((stats idx).map SourceStats.active_segments).getD 0

/-- Score of source `idx` as `reassign_segment` computes it. -/
def reassignScoreAt (stats : Nat → Option SourceStats) (idx : Nat) : ℚ :=
  reassignScore (srcSpeed stats idx) (srcErrors stats idx) (srcActive stats idx)

/-- The `for idx in 0..mirror_count` loop (multi_source.rs lines 97–119),
skipping the excluded index. -/
def reassignLoop (stats : Nat → Option SourceStats) (excluded : Nat) :
    List Nat → Option Nat × Option ℚ → Option Nat × Option ℚ
  | [], acc => acc
  | idx :: rest, (bi, bs) =>
    if idx = excluded then reassignLoop stats excluded rest (bi, bs)
    else
      let score := reassignScoreAt stats idx
      if gtOpt score bs then reassignLoop stats excluded rest (some idx, some score)
      else reassignLoop stats excluded rest (bi, bs)

/-- `MultiSourceManager::reassign_segment` (multi_source.rs lines 73–135).
Returns the chosen source (if any) and the successor state. -/
def reassign_segment (st : MultiSource) (segIdx : Nat) : Option Nat × MultiSource :=
  let oldSource := st.assignments segIdx
  let st1 :=
    match oldSource with
    | some oldIdx => { st with stats := decActiveAt st.stats oldIdx }
    | none => st
  if st1.mirrors.length ≤ 1 then (none, st1)
  else
    let excluded := oldSource.getD (2 ^ 64 - 1)
    let best := reassignLoop st1.stats excluded (List.range st1.mirrors.length) (none, none)
    match best.1 with
    | some newIdx =>
      (some newIdx,
        { st1 with
          assignments := fun k => if k = segIdx then some newIdx else st1.assignments k,
          stats := incActiveAt st1.stats newIdx })
    | none => (none, st1)

theorem reassignLoop_spec (stats : Nat → Option SourceStats) (excluded : Nat) :
    ∀ (l : List Nat) (bi : Option Nat) (bs : Option ℚ),
      leOpt bs (reassignLoop stats excluded l (bi, bs)).2 ∧
      (∀ idx ∈ l, idx ≠ excluded →
        leOpt (some (reassignScoreAt stats idx))
          (reassignLoop stats excluded l (bi, bs)).2) ∧
      ((reassignLoop stats excluded l (bi, bs)).1 = bi ∧
          (reassignLoop stats excluded l (bi, bs)).2 = bs ∨
        ∃ l1 idx l2, l = l1 ++ idx :: l2 ∧ idx ≠ excluded ∧
          (reassignLoop stats excluded l (bi, bs)).1 = some idx ∧
          (reassignLoop stats excluded l (bi, bs)).2
            = some (reassignScoreAt stats idx) ∧
          (∀ q ∈ l1, q ≠ excluded →
            reassignScoreAt stats q < reassignScoreAt stats idx) ∧
          (∀ b, bs = some b → b < reassignScoreAt stats idx)) := by
  intro l
  induction l with
  | nil =>
    intro bi bs
    exact ⟨leOpt_refl bs, by simp, Or.inl ⟨rfl, rfl⟩⟩
  | cons idx rest ih =>
    intro bi bs
    by_cases hex : idx = excluded
    · have hred : reassignLoop stats excluded (idx :: rest) (bi, bs)
          = reassignLoop stats excluded rest (bi, bs) := by
        simp [reassignLoop, hex]
      obtain ⟨ih1, ih2, ih3⟩ := ih bi bs
      rw [hred]
      refine ⟨ih1, ?_, ?_⟩
      · intro j hj hjex
        rcases List.mem_cons.mp hj with hj | hj
        · exact absurd (hj ▸ hex) hjex
        · exact ih2 j hj hjex
      · rcases ih3 with ⟨h1, h2⟩ | ⟨l1, j, l2, hsplit, hjex, h1, h2, hstrict, hacc⟩
        · exact Or.inl ⟨h1, h2⟩
        · refine Or.inr ⟨idx :: l1, j, l2, by rw [hsplit, List.cons_append],
            hjex, h1, h2, ?_, hacc⟩
          intro q hq hqex
          rcases List.mem_cons.mp hq with hq | hq
          · exact absurd (hq ▸ hex) hqex
          · exact hstrict q hq hqex
    · cases hgt : gtOpt (reassignScoreAt stats idx) bs with
      | true =>
        have hred : reassignLoop stats excluded (idx :: rest) (bi, bs)
            = reassignLoop stats excluded rest
                (some idx, some (reassignScoreAt stats idx)) := by
          simp [reassignLoop, hex, hgt]
        obtain ⟨ih1, ih2, ih3⟩ := ih (some idx) (some (reassignScoreAt stats idx))
        have hbslt : ∀ b, bs = some b → b < reassignScoreAt stats idx := by
          intro b hb
          rcases gtOpt_eq_true hgt with hn | ⟨b2, hb2, hlt⟩
          · rw [hn] at hb; exact Option.noConfusion hb
          · rw [hb2] at hb
            rw [← Option.some.inj hb]
            exact hlt
        rw [hred]
        refine ⟨?_, ?_, ?_⟩
        · rcases gtOpt_eq_true hgt with hb | ⟨b, hb, hlt⟩
          · rw [hb]; exact trivial
          · rw [hb]; exact leOpt_some_trans (le_of_lt hlt) ih1
        · intro j hj hjex
          rcases List.mem_cons.mp hj with hj | hj
          · rw [hj]; exact ih1
          · exact ih2 j hj hjex
        · rcases ih3 with ⟨h1, h2⟩ | ⟨l1, j, l2, hsplit, hjex, h1, h2, hstrict, hacc⟩
          · exact Or.inr ⟨[], idx, rest, by simp, hex, h1, h2, by simp, hbslt⟩
          · have hsclt : reassignScoreAt stats idx < reassignScoreAt stats j :=
              hacc (reassignScoreAt stats idx) rfl
            refine Or.inr ⟨idx :: l1, j, l2, by rw [hsplit, List.cons_append],
              hjex, h1, h2, ?_, ?_⟩
            · intro q hq hqex
              rcases List.mem_cons.mp hq with hq | hq
              · rw [hq]; exact hsclt
              · exact hstrict q hq hqex
            · intro b hb
              exact lt_trans (hbslt b hb) hsclt
      | false =>
        have hred : reassignLoop stats excluded (idx :: rest) (bi, bs)
            = reassignLoop stats excluded rest (bi, bs) := by
          simp [reassignLoop, hex, hgt]
        obtain ⟨b0, hb0, hle0⟩ := gtOpt_eq_false hgt
        subst hb0
        obtain ⟨ih1, ih2, ih3⟩ := ih bi (some b0)
        rw [hred]
        refine ⟨ih1, ?_, ?_⟩
        · intro j hj hjex
          rcases List.mem_cons.mp hj with hj | hj
          · rw [hj]
            exact leOpt_some_trans hle0 ih1
          · exact ih2 j hj hjex
        · rcases ih3 with ⟨h1, h2⟩ | ⟨l1, j, l2, hsplit, hjex, h1, h2, hstrict, hacc⟩
          · exact Or.inl ⟨h1, h2⟩
          · have hblt : b0 < reassignScoreAt stats j := hacc b0 rfl
            refine Or.inr ⟨idx :: l1, j, l2, by rw [hsplit, List.cons_append],
              hjex, h1, h2, ?_, ?_⟩
            · intro q hq hqex
              rcases List.mem_cons.mp hq with hq | hq
              · rw [hq]; exact lt_of_le_of_lt hle0 hblt
              · exact hstrict q hq hqex
            · intro b hb
              rw [← Option.some.inj hb]
              exact hblt

theorem wrapDec_eq (a : Nat) (h1 : 0 < a) (h2 : a < 2 ^ 64) : wrapDec a = a - 1 := by
  have hsplit : a + (2 ^ 64 - 1) = (a - 1) + 1 * 2 ^ 64 := by omega
  rw [wrapDec, hsplit, Nat.add_mul_mod_self_right]
  exact Nat.mod_eq_of_lt (by omega)

/-- `reassign_segment` on ≥ 2 mirrors with an assigned source: the old source's
active count is decremented, and the new source is the first argmax of the
code's `(speed + 1) × error_penalty × load_factor` score over the remaining
sources — it attains the maximum and strictly exceeds the score of every
smaller non-excluded index (helper for C4's amended statement). -/
theorem reassign_segment_correct (st : MultiSource) (segIdx oldIdx : Nat)
    (hm : 1 < st.mirrors.length)
    (ha : st.assignments segIdx = some oldIdx)
    (hold : oldIdx < st.mirrors.length) :
    ∃ newIdx,
      (reassign_segment st segIdx).1 = some newIdx ∧
      newIdx < st.mirrors.length ∧
      newIdx ≠ oldIdx ∧
      (∀ i, i < st.mirrors.length → i ≠ oldIdx →
        reassignScoreAt (decActiveAt st.stats oldIdx) i
          ≤ reassignScoreAt (decActiveAt st.stats oldIdx) newIdx) ∧
      (∀ i, i < newIdx → i ≠ oldIdx →
        reassignScoreAt (decActiveAt st.stats oldIdx) i
          < reassignScoreAt (decActiveAt st.stats oldIdx) newIdx) ∧
      (reassign_segment st segIdx).2.assignments segIdx = some newIdx ∧
      (∀ k, k ≠ segIdx → (reassign_segment st segIdx).2.assignments k
        = st.assignments k) ∧
      (reassign_segment st segIdx).2.stats
        = incActiveAt (decActiveAt st.stats oldIdx) newIdx := by
  have hnle : ¬ st.mirrors.length ≤ 1 := by omega
  obtain ⟨s1, s2, s3⟩ := reassignLoop_spec (decActiveAt st.stats oldIdx) oldIdx
    (List.range st.mirrors.length) none none
  -- pick a non-excluded index to rule out the empty result
  have hi0 : ∃ i0, i0 ∈ List.range st.mirrors.length ∧ i0 ≠ oldIdx := by
    by_cases h0 : oldIdx = 0
    · exact ⟨1, List.mem_range.mpr (by omega), by omega⟩
    · exact ⟨0, List.mem_range.mpr (by omega), by omega⟩
  obtain ⟨i0, hi0m, hi0ne⟩ := hi0
  have hne2 : (reassignLoop (decActiveAt st.stats oldIdx) oldIdx
      (List.range st.mirrors.length) (none, none)).2 ≠ none := by
    intro hn
    have := s2 i0 hi0m hi0ne
    rw [hn] at this
    exact this
  rcases s3 with ⟨_, hbs⟩ | ⟨l1, j, l2, hsplit, hjex, h1, h2, hstrict, _⟩
  · exact absurd hbs hne2
  · have hjmem : j ∈ List.range st.mirrors.length := by
      rw [hsplit]
      exact List.mem_append_right _ (List.mem_cons_self _ _)
    have hjlt : j < st.mirrors.length := List.mem_range.mp hjmem
    have hlen1 : l1.length < st.mirrors.length := by
      have hlen := congrArg List.length hsplit
      simp [List.length_range] at hlen
      omega
    have hjl : j = l1.length := by
      have hg : (List.range st.mirrors.length).get? l1.length = some j := by
        rw [hsplit, List.get?_append_right (le_refl _)]
        simp
      rw [List.get?_range hlen1] at hg
      exact (Option.some.inj hg).symm
    have hres : reassign_segment st segIdx =
        (some j,
          { st with
            mirrors := st.mirrors,
            assignments := fun k => if k = segIdx then some j
              else st.assignments k,
            stats := incActiveAt (decActiveAt st.stats oldIdx) j }) := by
      simp only [reassign_segment, ha, Option.getD_some, hnle, if_neg hnle]
      rw [h1]
      simp
    refine ⟨j, ?_, hjlt, hjex, ?_, ?_, ?_, ?_, ?_⟩
    · rw [hres]
    · intro i hilt hine
      have := s2 i (List.mem_range.mpr hilt) hine
      rw [h2] at this
      exact this
    · intro i hilt hine
      have hil1 : i < l1.length := by omega
      have hgi : (l1 ++ j :: l2).get? i = l1.get? i := List.get?_append hil1
      have hl1i : l1.get? i = some i := by
        rw [← hgi, ← hsplit]
        exact List.get?_range (by omega)
      have hmemi : i ∈ l1 := List.get?_mem hl1i
      exact hstrict i hmemi hine
    · rw [hres]; simp
    · intro k hk; rw [hres]; simp [hk]
    · rw [hres]

/-- The selection score claimed in §4.6 of the spec:
`(speed + ε) × priority_boost × 1/(1 + errors·0.5) × 1/(1 + active·0.1)`
(modelled from the spec's words, for comparison with the code's score). -/
def specMirrorScore (eps : ℚ) (pr : MirrorPriority) (speed : ℚ)
    (errors active : Nat) : ℚ :=
  (speed + eps) * priorityBoost pr * (1 / (1 + (errors : ℚ) * (1 / 2)))
    * (1 / (1 + (active : ℚ) * (1 / 10)))

/-- Claim C4's select part: the chosen mirror maximises the spec's
`(speed + ε) × priority_boost × …` score. -/
def mirrorSelectClaim (eps : ℚ) : Prop :=
  ∀ (mirrors : List MirrorPriority) (stats : Nat → Option MirrorStats)
    (i : Nat) (pi pb : MirrorPriority),
    mirrors.get? i = some pi →
    mirrors.get? (best_mirror mirrors stats) = some pb →
    specMirrorScore eps pi (statSpeed stats i) (statErrors stats i)
        (statActive stats i)
      ≤ specMirrorScore eps pb (statSpeed stats (best_mirror mirrors stats))
          (statErrors stats (best_mirror mirrors stats))
          (statActive stats (best_mirror mirrors stats))

/-- C4 counterexample: no ε > 0 makes the claimed `(speed + ε) ×
priority_boost × …` formula describe `best_mirror`.  With mirrors
`[Fallback, Primary]` and no stats, every code score is `speed = 0`, so
`best_mirror` keeps index 0 (strict improvement only), while the claimed
formula scores the Primary mirror `1.5ε > 0.5ε` and would pick index 1. -/
theorem mirror_score_counterexample :
    ¬ ∃ eps : ℚ, 0 < eps ∧ mirrorSelectClaim eps := by
  rintro ⟨eps, heps, hc⟩
  have hbm : best_mirror [MirrorPriority.Fallback, MirrorPriority.Primary]
      (fun _ => none) = 0 := by
    norm_num [best_mirror, bestMirrorLoop, List.enum, List.enumFrom, gtOpt,
      statSpeed, statErrors, statActive, bestMirrorScore, priorityBoost]
  have h := hc [MirrorPriority.Fallback, MirrorPriority.Primary] (fun _ => none) 1
    MirrorPriority.Primary MirrorPriority.Fallback rfl (by rw [hbm]; rfl)
  rw [hbm] at h
  simp [specMirrorScore, statSpeed, statErrors, statActive, priorityBoost] at h
  linarith

/-- C4 (amended): `best_mirror` returns 0 on ≤ 1 mirrors and otherwise the
first argmax of the code score `speed × priority_boost × 1/(1 + errors·0.5) ×
1/(1 + active·0.1)` (no `+ ε` term) — the result attains the maximum and
strictly exceeds the score of every smaller index, so ties break to the lowest
index; `reassign_segment` decrements the old source's active count, then picks
the first argmax of `(speed + 1) × 1/(1 + errors·0.5) × 1/(1 + active·0.1)`
(no priority boost) over the sources excluding the current one — again
strictly beating every smaller non-excluded index — records the new assignment
and increments the new source's active count. -/
theorem mirror_selection_correct :
    (∀ (mirrors : List MirrorPriority) (stats : Nat → Option MirrorStats),
      mirrors.length ≤ 1 → best_mirror mirrors stats = 0) ∧
    (∀ (mirrors : List MirrorPriority) (stats : Nat → Option MirrorStats),
      1 < mirrors.length →
      best_mirror mirrors stats < mirrors.length ∧
      ∃ pb, mirrors.get? (best_mirror mirrors stats) = some pb ∧
        (∀ i pi, mirrors.get? i = some pi →
          bmPairScore stats (i, pi)
            ≤ bmPairScore stats (best_mirror mirrors stats, pb)) ∧
        (∀ i pi, i < best_mirror mirrors stats → mirrors.get? i = some pi →
          bmPairScore stats (i, pi)
            < bmPairScore stats (best_mirror mirrors stats, pb))) ∧
    (∀ (st : MultiSource) (segIdx oldIdx : Nat),
      1 < st.mirrors.length →
      st.assignments segIdx = some oldIdx →
      oldIdx < st.mirrors.length →
      ∃ newIdx,
        (reassign_segment st segIdx).1 = some newIdx ∧
        newIdx < st.mirrors.length ∧
        newIdx ≠ oldIdx ∧
        (∀ i, i < st.mirrors.length → i ≠ oldIdx →
          reassignScoreAt (decActiveAt st.stats oldIdx) i
            ≤ reassignScoreAt (decActiveAt st.stats oldIdx) newIdx) ∧
        (∀ i, i < newIdx → i ≠ oldIdx →
          reassignScoreAt (decActiveAt st.stats oldIdx) i
            < reassignScoreAt (decActiveAt st.stats oldIdx) newIdx) ∧
        (reassign_segment st segIdx).2.assignments segIdx = some newIdx ∧
        (∀ k, k ≠ segIdx → (reassign_segment st segIdx).2.assignments k
          = st.assignments k) ∧
        (reassign_segment st segIdx).2.stats
          = incActiveAt (decActiveAt st.stats oldIdx) newIdx) := by
  refine ⟨?_, ?_, ?_⟩
  · intro mirrors stats h
    simp [best_mirror, h]
  · intro mirrors stats h
    exact best_mirror_argmax mirrors stats h
  · intro st segIdx oldIdx h1 h2 h3
    exact reassign_segment_correct st segIdx oldIdx h1 h2 h3

/-- Witness for C4 (amended) at concrete mirror sets. -/
theorem mirror_selection_correct_witness :
    best_mirror [MirrorPriority.Primary] (fun _ => none) = 0 ∧
    best_mirror [MirrorPriority.Fallback, MirrorPriority.Primary]
      (fun _ => none) < 2 ∧
    ∃ newIdx, (reassign_segment
      ⟨[MirrorPriority.Primary, MirrorPriority.Secondary, MirrorPriority.Secondary],
        fun k => if k = 0 then some 0 else none,
        fun _ => none⟩ 0).1 = some newIdx := by
  refine ⟨mirror_selection_correct.1 [MirrorPriority.Primary] (fun _ => none)
    (by decide), ?_, ?_⟩
  · exact (mirror_selection_correct.2.1 [MirrorPriority.Fallback, MirrorPriority.Primary]
      (fun _ => none) (by decide)).1
  · obtain ⟨newIdx, hnew, _⟩ := mirror_selection_correct.2.2
      ⟨[MirrorPriority.Primary, MirrorPriority.Secondary, MirrorPriority.Secondary],
        fun k => if k = 0 then some 0 else none,
        fun _ => none⟩ 0 0 (by decide) rfl (by decide)
    exact ⟨newIdx, hnew⟩

theorem priorityBoost_pos (pr : MirrorPriority) : 0 < priorityBoost pr := by
  cases pr <;> norm_num [priorityBoost]

/-- C8: with the other factors fixed, both mirror scores (the `best_mirror`
score and the `reassign_segment` score) are non-increasing in the error count,
non-increasing in the active-segment count, and non-decreasing in the
(non-negative) average speed. -/
theorem mirror_score_monotone (pr : MirrorPriority) (speed speed' : ℚ)
    (e e' a a' : Nat) (hs : 0 ≤ speed) (hss : speed ≤ speed')
    (he : e ≤ e') (ha : a ≤ a') :
    bestMirrorScore (priorityBoost pr) speed e' a
      ≤ bestMirrorScore (priorityBoost pr) speed e a ∧
    bestMirrorScore (priorityBoost pr) speed e a'
      ≤ bestMirrorScore (priorityBoost pr) speed e a ∧
    bestMirrorScore (priorityBoost pr) speed e a
      ≤ bestMirrorScore (priorityBoost pr) speed' e a ∧
    reassignScore speed e' a ≤ reassignScore speed e a ∧
    reassignScore speed e a' ≤ reassignScore speed e a ∧
    reassignScore speed e a ≤ reassignScore speed' e a := by
  have hb : (0 : ℚ) < priorityBoost pr := priorityBoost_pos pr
  have hep : ∀ n : Nat, (0 : ℚ) < 1 + (n : ℚ) * (1 / 2) := fun n => by positivity
  have hlf : ∀ n : Nat, (0 : ℚ) < 1 + (n : ℚ) * (1 / 10) := fun n => by positivity
  have hemono : ∀ m n : Nat, m ≤ n →
      (1 : ℚ) / (1 + (n : ℚ) * (1 / 2)) ≤ 1 / (1 + (m : ℚ) * (1 / 2)) := by
    intro m n hmn
    apply one_div_le_one_div_of_le (hep m)
    have hc : (m : ℚ) ≤ n := by exact_mod_cast hmn
    linarith
  have hamono : ∀ m n : Nat, m ≤ n →
      (1 : ℚ) / (1 + (n : ℚ) * (1 / 10)) ≤ 1 / (1 + (m : ℚ) * (1 / 10)) := by
    intro m n hmn
    apply one_div_le_one_div_of_le (hlf m)
    have hc : (m : ℚ) ≤ n := by exact_mod_cast hmn
    linarith
  have hepn : ∀ n : Nat, (0 : ℚ) ≤ 1 / (1 + (n : ℚ) * (1 / 2)) :=
    fun n => le_of_lt (by positivity)
  have hlfn : ∀ n : Nat, (0 : ℚ) ≤ 1 / (1 + (n : ℚ) * (1 / 10)) :=
    fun n => le_of_lt (by positivity)
  have hsb : (0 : ℚ) ≤ speed * priorityBoost pr := mul_nonneg hs hb.le
  have hs1 : (0 : ℚ) ≤ speed + 1 := by linarith
  refine ⟨?_, ?_, ?_, ?_, ?_, ?_⟩
  · exact mul_le_mul_of_nonneg_right
      (mul_le_mul_of_nonneg_left (hemono e e' he) hsb) (hlfn a)
  · exact mul_le_mul_of_nonneg_left (hamono a a' ha)
      (mul_nonneg hsb (hepn e))
  · exact mul_le_mul_of_nonneg_right
      (mul_le_mul_of_nonneg_right
        (mul_le_mul_of_nonneg_right hss hb.le) (hepn e)) (hlfn a)
  · exact mul_le_mul_of_nonneg_right
      (mul_le_mul_of_nonneg_left (hemono e e' he) hs1) (hlfn a)
  · exact mul_le_mul_of_nonneg_left (hamono a a' ha)
      (mul_nonneg hs1 (hepn e))
  · exact mul_le_mul_of_nonneg_right
      (mul_le_mul_of_nonneg_right (by linarith : speed + 1 ≤ speed' + 1)
        (hepn e)) (hlfn a)

/-- Witness for C8 at concrete statistics. -/
theorem mirror_score_monotone_witness :
    bestMirrorScore (priorityBoost MirrorPriority.Primary) 1 2 0
      ≤ bestMirrorScore (priorityBoost MirrorPriority.Primary) 1 0 0 ∧
    reassignScore 1 0 0 ≤ reassignScore 2 0 0 := by
  have h := mirror_score_monotone MirrorPriority.Primary 1 2 0 2 0 1
    (by norm_num) (by norm_num) (by norm_num) (by norm_num)
  exact ⟨h.1, h.2.2.2.2.2⟩

/-- C9: with at most one mirror, `reassign_segment` returns `none` and leaves
the assignment map unchanged, yet the previously assigned source's
`active_segments` counter has been decremented — the decrement is not rolled
back on the `none` path (multi_source.rs lines 79–91). -/
theorem reassign_single_mirror (st : MultiSource) (segIdx oldIdx : Nat)
    (s : SourceStats)
    (hm : st.mirrors.length ≤ 1)
    (ha : st.assignments segIdx = some oldIdx)
    (hs : st.stats oldIdx = some s)
    (hact : 0 < s.active_segments) (hbound : s.active_segments < 2 ^ 64) :
    (reassign_segment st segIdx).1 = none ∧
    (reassign_segment st segIdx).2.assignments = st.assignments ∧
    (reassign_segment st segIdx).2.stats oldIdx
      = some { s with active_segments := s.active_segments - 1 } ∧
    (∀ j, j ≠ oldIdx → (reassign_segment st segIdx).2.stats j = st.stats j) := by
  have hres : reassign_segment st segIdx
      = (none, { st with stats := decActiveAt st.stats oldIdx }) := by
    simp only [reassign_segment, ha]
    rw [if_pos hm]
  rw [hres]
  refine ⟨rfl, rfl, ?_, ?_⟩
  · simp only [decActiveAt, hs, if_true]
    rw [wrapDec_eq s.active_segments hact hbound]
  · intro j hj
    simp only [decActiveAt, hs]
    rw [if_neg hj]

/-- Witness for C9: one mirror, segment 0 assigned to source 0 with one active
segment; reassign returns `none` but the counter drops to 0. -/
theorem reassign_single_mirror_witness :
    (reassign_segment
      ⟨[MirrorPriority.Primary],
        fun k => if k = 0 then some 0 else none,
        fun j => if j = 0 then some ⟨0, 0, 1, []⟩ else none⟩ 0).1 = none ∧
    (reassign_segment
      ⟨[MirrorPriority.Primary],
        fun k => if k = 0 then some 0 else none,
        fun j => if j = 0 then some ⟨0, 0, 1, []⟩ else none⟩ 0).2.stats 0
      = some ⟨0, 0, 0, []⟩ := by
  have h := reassign_single_mirror
    ⟨[MirrorPriority.Primary],
      fun k => if k = 0 then some 0 else none,
      fun j => if j = 0 then some ⟨0, 0, 1, []⟩ else none⟩ 0 0 ⟨0, 0, 1, []⟩
    (by decide) rfl rfl (by decide) (by norm_num)
  refine ⟨h.1, ?_⟩
  have h3 := h.2.2.1
  simpa using h3

/-- `SegmentAdjustment::Split` with its `BdpIncrease` reason payload
(controller.rs lines 104–130); the unused `Merge` variant is omitted from the
claims' scope. -/
inductive SegmentAdjustment where
  | Split (count : Nat) (bdp : Nat) (optimal : Nat)
deriving DecidableEq, Repr

/-- `((bdp as f64) / 65536.0).ceil() as usize` as Nat ceiling division (exact
whenever `bdp` is exactly representable in `f64`). -/
def ceilDiv65536 (bdp : Nat) : Nat := (bdp + 65535) / 65536

/-- Rust `x.clamp(lo, hi)` for `lo ≤ hi`. -/
def natClamp (lo hi x : Nat) : Nat := max lo (min x hi)

/-- `AdaptiveController::evaluate` (controller.rs lines 45–78) at a call past
the `adjustment_interval` gate; `current` is the loaded `current_segments`. -/
def evaluateCtl (current : Nat) (bdp : Option Nat)
    (fileSize maxSegments minSegmentSize : Nat) : Option SegmentAdjustment :=
  match bdp with
  | none => none
  | some b =>
    let optimal := natClamp 1 maxSegments (ceilDiv65536 b)
    if optimal ≤ current then none
    else
      let segmentsToAdd := min (optimal - current) 4
      let avgSegmentSize := fileSize / (current + segmentsToAdd)
      if avgSegmentSize < minSegmentSize then none
      else some (.Split segmentsToAdd b optimal)

/-- The file-size bucket cap of `NetworkMonitor::optimal_segment_count`
(monitor.rs lines 124–130), which is §4.3's table. -/
def sizeBucketCap (fileSize : Nat) : Nat :=
  if fileSize ≤ 1000000 then 1
  else if fileSize ≤ 10000000 then 4
  else if fileSize ≤ 100000000 then 8
  else if fileSize ≤ 1000000000 then 16
  else 32

/-- Claim C5 as stated: with the default configuration, `evaluate` schedules an
adjustment only when the §4.3 bucket-clamped target exceeds the current count. -/
def evaluateClaim : Prop :=
  ∀ (current b fileSize : Nat),
    (evaluateCtl current (some b) fileSize 32 (256 * 1024)).isSome →
    current < natClamp 1 (sizeBucketCap fileSize) (ceilDiv65536 b)

/-- C5 counterexample: for a 10 MB file at `bdp = 32·65536` with 4 current
segments, the §4.3 bucket cap gives target 4 = current (so the claim predicts
no adjustment), but the code clamps to `max_segments = 32` and schedules
adding 4 segments. -/
theorem evaluate_counterexample : ¬ evaluateClaim := by
  intro h
  have h2 := h 4 (32 * 65536) 10000000 (by decide)
  exact absurd h2 (by decide)

/-- C5 (amended): past the adjustment interval, `evaluate` computes the target
as `ceil(bdp / 65536)` clamped to `[1, max_segments]` (the controller's
configured cap, default 32 — not the §4.3 file-size bucket, which only
`NetworkMonitor::optimal_segment_count` applies); when target > current it
schedules adding `min(target − current, 4)` segments, and it returns no
adjustment when `file_size / (current + added)` is below `min_segment_size`
or when no BDP estimate is available. -/
theorem evaluate_correct (current b fileSize maxSegments minSegmentSize : Nat) :
    (evaluateCtl current none fileSize maxSegments minSegmentSize = none) ∧
    (∀ adj, evaluateCtl current (some b) fileSize maxSegments minSegmentSize
        = some adj →
      adj = SegmentAdjustment.Split
        (min (natClamp 1 maxSegments (ceilDiv65536 b) - current) 4) b
        (natClamp 1 maxSegments (ceilDiv65536 b))) ∧
    (evaluateCtl current (some b) fileSize maxSegments minSegmentSize ≠ none ↔
      (current < natClamp 1 maxSegments (ceilDiv65536 b) ∧
        minSegmentSize ≤ fileSize /
          (current + min (natClamp 1 maxSegments (ceilDiv65536 b) - current) 4))) := by
  refine ⟨rfl, ?_, ?_⟩
  · intro adj hadj
    simp only [evaluateCtl] at hadj
    by_cases hopt : natClamp 1 maxSegments (ceilDiv65536 b) ≤ current
    · rw [if_pos hopt] at hadj
      exact absurd hadj (by simp)
    · rw [if_neg hopt] at hadj
      by_cases havg : fileSize /
          (current + min (natClamp 1 maxSegments (ceilDiv65536 b) - current) 4)
            < minSegmentSize
      · rw [if_pos havg] at hadj
        exact absurd hadj (by simp)
      · rw [if_neg havg] at hadj
        exact (Option.some.inj hadj).symm
  · simp only [evaluateCtl]
    by_cases hopt : natClamp 1 maxSegments (ceilDiv65536 b) ≤ current
    · rw [if_pos hopt]
      simp
      omega
    · rw [if_neg hopt]
      by_cases havg : fileSize /
          (current + min (natClamp 1 maxSegments (ceilDiv65536 b) - current) 4)
            < minSegmentSize
      · rw [if_pos havg]
        simp
        omega
      · rw [if_neg havg]
        simp
        omega

/-- Witness for C5 (amended) at the 10 MB / `bdp = 32·65536` input. -/
theorem evaluate_correct_witness :
    evaluateCtl 4 (some (32 * 65536)) 10000000 32 (256 * 1024)
      = some (SegmentAdjustment.Split 4 (32 * 65536) 32) ∧
    SegmentAdjustment.Split 4 (32 * 65536) 32
      = SegmentAdjustment.Split
          (min (natClamp 1 32 (ceilDiv65536 (32 * 65536)) - 4) 4) (32 * 65536)
          (natClamp 1 32 (ceilDiv65536 (32 * 65536))) := by
  have h1 : evaluateCtl 4 (some (32 * 65536)) 10000000 32 (256 * 1024)
      = some (SegmentAdjustment.Split 4 (32 * 65536) 32) := by decide
  exact ⟨h1, (evaluate_correct 4 (32 * 65536) 10000000 32 (256 * 1024)).2.1 _ h1⟩

/-- The error kinds of `StormError` that `fetch_range` can produce
(storm-core/src/error.rs). -/
inductive StormError where
  | Network (msg : String)
  | RangeNotSupported
  | RateLimited
  | Http (status : Nat)
deriving DecidableEq, Repr

/-- An HTTP response as `fetch_range` consumes it: a status code and the byte
stream, each chunk either data or a stream error. -/
structure HttpResponse (α : Type) where
  status : Nat
  chunks : List (Except String α)

/-- A `DataSink` abstracted to its observable effect: the chunks written, in
order, and the number of `flush` calls. -/
structure SinkState (α : Type) where
  written : List α
  flushes : Nat
deriving DecidableEq, Repr

/-- `sink.write(chunk)`. -/
def sinkWrite {α : Type} (sink : SinkState α) (c : α) : SinkState α :=
  { sink with written := sink.written ++ [c] }

/-- `sink.flush()`. -/
def sinkFlush {α : Type} (sink : SinkState α) : SinkState α :=
  { sink with flushes := sink.flushes + 1 }

/-- The `while let Some(chunk) = stream.next().await` loop of `fetch_range`
(http.rs lines 215–218): a failed chunk aborts with `Network`. -/
def writeChunks {α : Type} : List (Except String α) → SinkState α →
    Except StormError (SinkState α)
  | [], sink => .ok sink
  | .ok c :: rest, sink => writeChunks rest (sinkWrite sink c)
  | .error e :: _, _ => .error (.Network e)

/-- `HttpDownloader::fetch_range` (http.rs lines 180–222): the status dispatch
of lines 198–212 followed by the stream loop and the final flush. -/
def fetch_range {α : Type} (resp : HttpResponse α) (sink : SinkState α) :
    Except StormError (SinkState α) :=
  if resp.status = 206 then
    match writeChunks resp.chunks sink with
    | .ok s => .ok (sinkFlush s)
    | .error e => .error e
  else if resp.status = 200 then .error .RangeNotSupported
  else if resp.status = 429 then .error .RateLimited
  else .error (.Http resp.status)

theorem writeChunks_ok {α : Type} :
    ∀ (datas : List α) (sink : SinkState α),
      writeChunks (datas.map Except.ok) sink
        = .ok ⟨sink.written ++ datas, sink.flushes⟩ := by
  intro datas
  induction datas with
  | nil => intro sink; simp [writeChunks]
  | cons c rest ih =>
    intro sink
    simp only [List.map, writeChunks, ih, sinkWrite]
    simp

/-- C6: `fetch_range` succeeds only on status 206; status 200 yields
`RangeNotSupported`, 429 yields `RateLimited`, any other non-206 status yields
`Http{status}`; on success every received chunk reaches the sink in arrival
order and the sink is flushed once after stream end. -/
theorem fetch_range_correct {α : Type} (resp : HttpResponse α) (sink : SinkState α) :
    (∀ s, fetch_range resp sink = .ok s → resp.status = 206) ∧
    (resp.status = 200 → fetch_range resp sink = .error .RangeNotSupported) ∧
    (resp.status = 429 → fetch_range resp sink = .error .RateLimited) ∧
    (resp.status ≠ 206 → resp.status ≠ 200 → resp.status ≠ 429 →
      fetch_range resp sink = .error (.Http resp.status)) ∧
    (∀ datas : List α, resp.status = 206 → resp.chunks = datas.map Except.ok →
      fetch_range resp sink = .ok ⟨sink.written ++ datas, sink.flushes + 1⟩) := by
  refine ⟨?_, ?_, ?_, ?_, ?_⟩
  · intro s hs
    by_contra hne
    have h200 : resp.status = 200 ∨ resp.status ≠ 200 := em _
    simp only [fetch_range, if_neg hne] at hs
    rcases h200 with h | h
    · rw [if_pos h] at hs; exact Except.noConfusion hs
    · rw [if_neg h] at hs
      by_cases h429 : resp.status = 429
      · rw [if_pos h429] at hs; exact Except.noConfusion hs
      · rw [if_neg h429] at hs; exact Except.noConfusion hs
  · intro h
    have hne : resp.status ≠ 206 := by omega
    simp [fetch_range, hne, h]
  · intro h
    have hne : resp.status ≠ 206 := by omega
    have hne2 : resp.status ≠ 200 := by omega
    simp [fetch_range, hne, hne2, h]
  · intro h1 h2 h3
    simp [fetch_range, h1, h2, h3]
  · intro datas h206 hdatas
    simp only [fetch_range, if_pos h206, hdatas, writeChunks_ok, sinkFlush]

/-- Witness for C6 at a concrete two-chunk 206 response. -/
theorem fetch_range_correct_witness :
    fetch_range (⟨206, [Except.ok 1, Except.ok 2]⟩ : HttpResponse Nat)
        (⟨[], 0⟩ : SinkState Nat) = .ok ⟨[1, 2], 1⟩ ∧
    fetch_range (⟨200, []⟩ : HttpResponse Nat) (⟨[], 0⟩ : SinkState Nat)
      = .error .RangeNotSupported ∧
    fetch_range (⟨429, []⟩ : HttpResponse Nat) (⟨[], 0⟩ : SinkState Nat)
      = .error .RateLimited ∧
    fetch_range (⟨503, []⟩ : HttpResponse Nat) (⟨[], 0⟩ : SinkState Nat)
      = .error (.Http 503) := by
  refine ⟨?_, ?_, ?_, ?_⟩
  · have h := (fetch_range_correct (⟨206, [Except.ok 1, Except.ok 2]⟩ : HttpResponse Nat)
      (⟨[], 0⟩ : SinkState Nat)).2.2.2.2 [1, 2] rfl rfl
    simpa using h
  · exact (fetch_range_correct _ _).2.1 rfl
  · exact (fetch_range_correct _ _).2.2.1 rfl
  · exact (fetch_range_correct _ _).2.2.2.1 (by decide) (by decide) (by decide)

/-- `RateLimiter` (storm-bandwidth/src/limiter.rs); the `governor` limiter is
abstracted to the quota it was built with, preserving exactly when one exists. -/
structure RateLimiter where
  limiter : Option Nat
  bytes_per_second : Option Nat
deriving DecidableEq, Repr

/-- `RateLimiter::new` (limiter.rs lines 17–32); `as u32` wraps to `2^32` and
`NonZeroU32::new` is the zero test. -/
def RateLimiter.new (bps : Option Nat) : RateLimiter :=
  let limiter := bps.bind fun b =>
    if b = 0 then none
    else
      let chunksPerSecond := (max (b / 16384) 1) % 2 ^ 32
      if chunksPerSecond = 0 then none else some chunksPerSecond
  ⟨limiter, bps⟩

/-- `RateLimiter::unlimited`. -/
def RateLimiter.unlimited : RateLimiter := ⟨none, none⟩

/-- `RateLimiter::acquire` (limiter.rs lines 41–48), observed as the number of
`until_ready().await` suspensions; it has no error path. -/
def RateLimiter.acquire (rl : RateLimiter) (bytes : Nat) : Nat :=
  match rl.limiter with
  | none => 0
  | some _ => max (bytes / 16384) 1

/-- `RateLimiter::try_acquire` (limiter.rs lines 50–62); the governor's
`check_n(n).is_ok()` outcome is abstracted as `check n`. -/
def RateLimiter.try_acquire (rl : RateLimiter) (check : Nat → Bool)
    (bytes : Nat) : Bool :=
  match rl.limiter with
  | some _ =>
    let chunks := (max (bytes / 16384) 1) % 2 ^ 32
    if chunks ≠ 0 then check chunks else true
  | none => true

/-- `RateLimiter::set_limit`: `*self = Self::new(bytes_per_second)`. -/
def RateLimiter.set_limit (_ : RateLimiter) (bps : Option Nat) : RateLimiter :=
  RateLimiter.new bps

/-- C7: a limiter constructed (or updated via `set_limit`) with
`bytes_per_second` 0 or `None` is unlimited: `acquire` suspends zero times and
`try_acquire` returns `true` whatever the governor would say; neither
operation has an error path (their return types carry none). -/
theorem limiter_zero_unlimited (bps : Option Nat) (bytes : Nat)
    (check : Nat → Bool) (h : bps = some 0 ∨ bps = none) :
    (RateLimiter.new bps).limiter = none ∧
    (RateLimiter.new bps).acquire bytes = 0 ∧
    (RateLimiter.new bps).try_acquire check bytes = true ∧
    ∀ rl : RateLimiter, (rl.set_limit bps).acquire bytes = 0 ∧
      (rl.set_limit bps).try_acquire check bytes = true := by
  rcases h with h | h <;> subst h <;>
    simp [RateLimiter.new, RateLimiter.acquire, RateLimiter.try_acquire,
      RateLimiter.set_limit]

/-- Witness for C7 at `bytes_per_second = Some 0` and `None`, with a governor
that would always refuse. -/
theorem limiter_zero_unlimited_witness :
    (RateLimiter.new (some 0)).acquire 100000 = 0 ∧
    (RateLimiter.new (some 0)).try_acquire (fun _ => false) 100000 = true ∧
    (RateLimiter.new none).try_acquire (fun _ => false) 1 = true := by
  refine ⟨(limiter_zero_unlimited (some 0) 100000 (fun _ => false)
      (Or.inl rfl)).2.1,
    (limiter_zero_unlimited (some 0) 100000 (fun _ => false) (Or.inl rfl)).2.2.1,
    (limiter_zero_unlimited none 1 (fun _ => false) (Or.inr rfl)).2.2.1⟩

/-- Wrapping `u64` subtraction `a - b` (release-mode semantics of
`last_bytes - first_bytes` in monitor.rs line 81), for `a, b < 2^64`. -/
def wrapSub64 (a b : Nat) : Nat := (a + (2 ^ 64 - b % 2 ^ 64)) % 2 ^ 64

/-- `NetworkMonitor::current_speed` (monitor.rs lines 67–82).  A sample is a
`(Instant, u64)` pair: the instant becomes a time in seconds as `ℚ`, and
`duration_since(..).as_secs_f64()` the `ℚ` difference. -/
def current_speed (samples : List (ℚ × Nat)) : ℚ :=
  if samples.length < 2 then 0
  else
    match samples.head?, samples.getLast? with
    | some (ft, fb), some (lt, lb) =>
      let elapsed := lt - ft
      if elapsed < 1 / 1000 then 0
      else (wrapSub64 lb fb : ℚ) / elapsed
    | _, _ => 0

theorem wrapSub64_eq (a b : Nat) (h1 : b ≤ a) (h2 : a < 2 ^ 64) :
    wrapSub64 a b = a - b := by
  have hb : b % 2 ^ 64 = b := Nat.mod_eq_of_lt (by omega)
  rw [wrapSub64, hb]
  have hsplit : a + (2 ^ 64 - b) = (a - b) + 1 * 2 ^ 64 := by omega
  rw [hsplit, Nat.add_mul_mod_self_right]
  exact Nat.mod_eq_of_lt (by omega)

theorem chain_head_last {α : Type} (R : α → α → Prop)
    (htrans : ∀ a b c, R a b → R b c → R a c) (hrefl : ∀ a, R a a) :
    ∀ (l : List α) (a b : α),
      List.Chain' R l → l.head? = some a → l.getLast? = some b → R a b := by
  intro l
  induction l with
  | nil => intro a b _ hh _; exact Option.noConfusion hh
  | cons x rest ih =>
    intro a b hc hh hl
    have hxa : x = a := by simpa using hh
    cases rest with
    | nil =>
      have hxb : x = b := by simpa using hl
      rw [← hxa, ← hxb]
      exact hrefl x
    | cons y rest2 =>
      have hxy : R x y := (List.chain'_cons.mp hc).1
      have hc2 : List.Chain' R (y :: rest2) := (List.chain'_cons.mp hc).2
      have hl2 : (y :: rest2).getLast? = some b := by
        rw [← hl]
        exact List.getLast?_cons_cons.symm
      have hyb : R y b := ih y b hc2 rfl hl2
      rw [← hxa]
      exact htrans x y b hxy hyb

/-- C10: `current_speed` returns 0 when fewer than 2 samples are held or the
window's elapsed time is under 1 ms; and when the recorded cumulative byte
counts are non-decreasing over the (chronological) window, the `u64`
subtraction `last_bytes - first_bytes` does not underflow and the result is
`(last_bytes − first_bytes) / (last_time − first_time)`. -/
theorem current_speed_correct :
    (∀ samples : List (ℚ × Nat), samples.length < 2 →
      current_speed samples = 0) ∧
    (∀ (samples : List (ℚ × Nat)) (ft lt : ℚ) (fb lb : Nat),
      samples.head? = some (ft, fb) → samples.getLast? = some (lt, lb) →
      lt - ft < 1 / 1000 → current_speed samples = 0) ∧
    (∀ (samples : List (ℚ × Nat)) (ft lt : ℚ) (fb lb : Nat),
      2 ≤ samples.length →
      samples.head? = some (ft, fb) → samples.getLast? = some (lt, lb) →
      List.Chain' (fun p q => p.1 ≤ q.1 ∧ p.2 ≤ q.2) samples →
      lb < 2 ^ 64 →
      ¬ lt - ft < 1 / 1000 →
      fb ≤ lb ∧
      current_speed samples = ((lb : ℚ) - (fb : ℚ)) / (lt - ft)) := by
  refine ⟨?_, ?_, ?_⟩
  · intro samples h
    simp [current_speed, h]
  · intro samples ft lt fb lb hh hl helapsed
    by_cases hlen : samples.length < 2
    · simp [current_speed, hlen]
    · simp only [current_speed, if_neg hlen, hh, hl]
      rw [if_pos helapsed]
  · intro samples ft lt fb lb hlen hh hl hchain hlb helapsed
    have hmono : fb ≤ lb := by
      have := chain_head_last (fun p q : ℚ × Nat => p.1 ≤ q.1 ∧ p.2 ≤ q.2)
        (fun a b c hab hbc => ⟨le_trans hab.1 hbc.1, le_trans hab.2 hbc.2⟩)
        (fun a => ⟨le_refl _, le_refl _⟩) samples (ft, fb) (lt, lb) hchain hh hl
      exact this.2
    refine ⟨hmono, ?_⟩
    have hlen2 : ¬ samples.length < 2 := by omega
    simp only [current_speed, if_neg hlen2, hh, hl]
    rw [if_neg helapsed, wrapSub64_eq lb fb hmono hlb]
    rw [Nat.cast_sub hmono]

/-- Witness for C10 at the window `[(0 s, 0 B), (1 s, 100 B)]`. -/
theorem current_speed_correct_witness :
    current_speed [(0, 0), (1, 100)] = ((100 : ℚ) - 0) / (1 - 0) ∧
    current_speed [(0, 0)] = 0 := by
  constructor
  · exact (current_speed_correct.2.2 [(0, 0), (1, 100)] 0 1 0 100 (by norm_num)
      rfl rfl (by norm_num [List.chain'_cons]) (by norm_num) (by norm_num)).2
  · exact current_speed_correct.1 [(0, 0)] (by norm_num)

end Storm
